import Mathlib

/-!
Verification of the squashfs layer-generation subsystem of the stacker
container-image builder.

We shallowly embed the Go package `squashfs` (exclude/include path algebra,
whiteout encoding, squashfs build/extract orchestration) as executable Lean
definitions, together with faithful models of the Go standard-library path
helpers it relies on (`path.Clean`, `path.Dir`, `path.Base`, `path.Join`,
`strings.HasPrefix`, `strings.Replace`).  External effects (the kernel,
`mknod`, `os.Create`, the content store, the archiver processes) are modelled
by explicit oracles so the control flow of the Go code becomes a pure function
of the oracle answers.
-/

set_option maxRecDepth 4000

namespace Stacker

/-! ### Go standard library: `path` package model

Strings are processed as their underlying `List Char`.  `cleanL` mirrors the
documented algorithm of Go `path.Clean`: collapse repeated slashes, drop `.`
elements, resolve `..` against the preceding element (dropping a leading `..`
of a rooted path, keeping it for a relative path). -/

/-- Split a character list at every occurrence of `sep` (Go `strings.Split`
with a one-character separator; empty segments are retained). -/
def splitCharL (sep : Char) : List Char → List (List Char)
  | [] => [[]]
  | c :: rest =>
    if c = sep then [] :: splitCharL sep rest
    else
      match splitCharL sep rest with
      | s :: ss => (c :: s) :: ss
      | [] => [[c]]

/-- Join path components with `'/'` separators (no leading slash). -/
def joinSlash : List (List Char) → List Char
  | [] => []
  | [c] => c
  | c :: c' :: cs => c ++ '/' :: joinSlash (c' :: cs)

/-- Render an absolute path from its component list: `renderComps [] = "/"`. -/
def renderComps (cs : List (List Char)) : List Char :=
  '/' :: joinSlash cs

/-- Resolve `..` components against a stack of already-accepted components,
as Go `path.Clean` does: a `..` pops the previous non-`..` component, is
dropped at the root of a rooted path, and is kept for a relative path. -/
def resolveDots (rooted : Bool) : List (List Char) → List (List Char) → List (List Char)
  | acc, [] => acc.reverse
  | acc, c :: rest =>
    if c = ['.', '.'] then
      match acc with
      | top :: acc' =>
        if top = ['.', '.'] then resolveDots rooted (c :: acc) rest
        else resolveDots rooted acc' rest
      | [] =>
        if rooted then resolveDots rooted [] rest
        else resolveDots rooted [c] rest
    else resolveDots rooted (c :: acc) rest

/-- Go `path.Clean` on a character list. -/
def cleanL (l : List Char) : List Char :=
  if l = [] then ['.']
  else
    let rooted := l.head? == some '/'
    let comps := (splitCharL '/' l).filter (fun c => c != [] && c != ['.'])
    let res := resolveDots rooted [] comps
    if rooted then '/' :: joinSlash res
    else if res = [] then ['.'] else joinSlash res

/-- Go `path.Dir` on a character list: everything up to (and including) the
final slash, then `Clean`; `"."` when there is no slash. -/
def dirL (l : List Char) : List Char :=
  cleanL ((l.reverse.dropWhile (fun c => c != '/')).reverse)

/-- Go `path.Base` on a character list. -/
def baseL (l : List Char) : List Char :=
  if l = [] then ['.']
  else
    let l1 := (l.reverse.dropWhile (fun c => c == '/')).reverse
    let l2 := (l1.reverse.takeWhile (fun c => c != '/')).reverse
    if l2 = [] then ['/'] else l2

/-- Go `path.Clean`. -/
def goClean (s : String) : String := ⟨cleanL s.data⟩

/-- Go `path.Dir`. -/
def goDir (s : String) : String := ⟨dirL s.data⟩

/-- Go `path.Base`. -/
def goBase (s : String) : String := ⟨baseL s.data⟩

/-- Go `path.Join`: drop leading empty elements, join the rest with `/`,
then `Clean`; `""` when every element is empty. -/
def goJoin (elems : List String) : String :=
  match elems with
  | [] => ""
  | e :: rest => if e = "" then goJoin rest else goClean (String.intercalate "/" (e :: rest))

/-- Go `strings.HasPrefix s pre`. -/
def hasPrefixGo (s pre : String) : Bool :=
  pre.data.isPrefixOf s.data

/-- Does `sub` occur as a contiguous segment of `l`? -/
def containsSeg (sub : List Char) : List Char → Bool
  | [] => sub.isEmpty
  | c :: rest => sub.isPrefixOf (c :: rest) || containsSeg sub rest

/-- Go `strings.Contains s sub`. -/
def strContains (s sub : String) : Bool := containsSeg sub.data s.data

/-- Replace the first `':'` by `'_'` (Go `strings.Replace s ":" "_" 1`). -/
def replaceColon1 : List Char → List Char
  | [] => []
  | c :: rest => if c = ':' then '_' :: rest else c :: replaceColon1 rest

/-- Go `strings.Replace s ":" "_" 1` on strings. -/
def replaceColonUnder (s : String) : String := ⟨replaceColon1 s.data⟩

example : goDir "/a/b" = "/a" := by decide
example : goDir "/a" = "/" := by decide
example : goDir "/" = "/" := by decide
example : goDir "hosts" = "." := by decide
example : goClean "/a//b/./c/../d" = "/a/b/d" := by decide
example : goBase "/etc/hosts" = "hosts" := by decide
example : goJoin ["/b/rootfs", "etc", ".wh.hosts"] = "/b/rootfs/etc/.wh.hosts" := by decide
example : goJoin ["/r", ".", ".wh.a"] = "/r/.wh.a" := by decide
example : replaceColonUnder "sha256:abcd" = "sha256_abcd" := by decide
example : hasPrefixGo "/usr" "/us" = true := by decide
example : strContains "abcde" "bcd" = true := by decide

/-! ### ExcludePaths: the include/exclude path algebra

The Go `exclude map[string]bool` is modelled by its key set, kept as a
duplicate-free list in insertion order; `include []string` is a plain list. -/

/-- Insert a key into a map key-set model (no-op when already present). -/
def insertKey (l : List String) (k : String) : List String :=
  if k ∈ l then l else l ++ [k]

/-- Delete a key from a map key-set model (Go `delete`). -/
def eraseKey (l : List String) (k : String) : List String :=
  l.filter (fun x => x != k)

/-- The `ExcludePaths` structure of the source: a set of excluded paths and a
list of included paths. -/
structure ExcludePaths where
  exclude : List String
  include' : List String
deriving DecidableEq, Repr

/-- `NewExcludePaths` of the source. -/
def NewExcludePaths : ExcludePaths := ⟨[], []⟩

/-- `ExcludePaths.AddExclude` of the source: refuse to add `p` when `p` is a
string prefix (`strings.HasPrefix`) of any already-included path; otherwise
add `p` to the exclude set. -/
def ExcludePaths.AddExclude (eps : ExcludePaths) (p : String) : ExcludePaths :=
  if eps.include'.any (fun inc => hasPrefixGo inc p) then eps
  else { eps with exclude := insertKey eps.exclude p }

/-- The ancestor-removal loop of `ExcludePaths.AddInclude`: starting from `p`,
delete `p` from the exclude set and step to `path.Dir p`, stopping at `"/"`.
The Go loop terminates only because the source's paths are absolute; the fuel
argument (instantiated with `p.length`, an upper bound on the number of `Dir`
steps for an absolute path) makes the recursion total. -/
def removeAncestors : Nat → String → List String → List String
  | 0, _, ex => ex
  | fuel + 1, p, ex =>
    if p = "/" then ex
    else removeAncestors fuel (goDir p) (eraseKey ex p)

/-- `ExcludePaths.AddInclude` of the source: normalize a non-directory to its
parent, walk upward deleting every ancestor from the exclude set, then append
`orig` to the include list. -/
def ExcludePaths.AddInclude (eps : ExcludePaths) (orig : String) (isDir : Bool) : ExcludePaths :=
  let p := if isDir then orig else goDir orig
  { exclude := removeAncestors p.length p eps.exclude,
    include' := eps.include' ++ [orig] }

/-- `ExcludePaths.String` of the source: every excluded path followed by a
newline, terminated by one extra newline (the `bytes.Buffer` writes of the
source cannot fail, so the Go error result is always nil). -/
def ExcludePaths.String (eps : ExcludePaths) : String :=
  (eps.exclude.foldl (fun buf p => buf ++ p ++ "\n") "") ++ "\n"

/-- A call against the ExcludePaths API. -/
inductive PathCall
  | exc (p : String)
  | inc (orig : String) (isDir : Bool)
deriving DecidableEq, Repr

/-- Apply one API call. -/
def applyCall (eps : ExcludePaths) : PathCall → ExcludePaths
  | .exc p => eps.AddExclude p
  | .inc orig isDir => eps.AddInclude orig isDir

/-- Run a sequence of API calls from the empty `ExcludePaths`. -/
def runCalls (cs : List PathCall) : ExcludePaths :=
  cs.foldl applyCall NewExcludePaths

/-- The path argument of a call. -/
def callPath : PathCall → String
  | .exc p => p
  | .inc orig _ => orig

/-! ### The directory-hierarchy prefix relation of the specification -/

/-- `e` is a prefix of `i` in the directory-hierarchy sense: `i` equals `e` or
lies inside the subtree rooted at `e` (for normalized absolute paths). -/
def isDirAncestor (e i : String) : Bool :=
  e == i || hasPrefixGo i (if e == "/" then "/" else e ++ "/")

/-- `e` is a strict ancestor of `i` in the directory-hierarchy sense. -/
def isStrictDirAncestor (e i : String) : Bool :=
  e != i && isDirAncestor e i

/-- A well-formed path component: non-empty, not a dot element, slash-free. -/
def goodComp (c : List Char) : Prop :=
  c ≠ [] ∧ c ≠ ['.'] ∧ c ≠ ['.', '.'] ∧ '/' ∉ c

instance : DecidablePred goodComp := fun c => by
  unfold goodComp
  infer_instance

/-- A normalized absolute POSIX path (the path space of the specification's
data model): `/` followed by well-formed components. -/
def Canonical (s : String) : Prop :=
  ∃ cs : List (List Char), (∀ c ∈ cs, goodComp c) ∧ s.data = renderComps cs

example : isStrictDirAncestor "/usr" "/usr/bin" = true := by decide
example : isStrictDirAncestor "/us" "/usr" = false := by decide
example : isDirAncestor "/a" "/a" = true := by decide
example : isStrictDirAncestor "/" "/a" = true := by decide

-- Sanity evaluation of the C1 counterexample trace.
example :
    runCalls [.exc "/", .exc "/a", .inc "/a" false] =
      { exclude := ["/", "/a"], include' := ["/a"] } := by decide

-- Sanity evaluation of the C6 counterexample trace.
example :
    ((NewExcludePaths.AddInclude "/usr" true).AddExclude "/us").exclude = [] := by decide

/-! ### MakeSquashfs: argument construction

`MakeSquashfs` renders the exclude list, writes it to a temp file when
non-empty, and invokes `mksquashfs rootfs output [-ef excludesFile]`.  The
temp-file names are oracle inputs; the model captures whether the exclude
file is written and the argument vector handed to the archiver. -/

/-- The observable outcome of `MakeSquashfs` argument assembly. -/
structure SquashArgs where
  excludesFileWritten : Bool
  args : List String
deriving DecidableEq, Repr

/-- `MakeSquashfs` of the source, restricted to its pure decision content:
which arguments are passed to `mksquashfs` and whether an exclude-list temp
file is written (`len(toExclude) != 0` gates both). -/
def MakeSquashfs (rootfs : String) (eps : Option ExcludePaths)
    (excludesName tmpName : String) : SquashArgs :=
  let toExclude :=
    match eps with
    | none => ""
    | some e => ExcludePaths.String e
  { excludesFileWritten := toExclude.length != 0,
    args := [rootfs, tmpName] ++ (if toExclude.length != 0 then ["-ef", excludesName] else []) }

/-! ### Diff entries, the filesystem model and the whiteout-encoding loop -/

/-- The four diff variants produced by `mtree.CompareSame` (after filtering). -/
inductive DiffType
  | Modified | Extra | Missing | Same
deriving DecidableEq, Repr

/-- One filtered diff entry: its rootfs-relative path and the is-directory
bits of the old and new sides. -/
structure DiffEntry where
  ty : DiffType
  path : String
  oldIsDir : Bool
  newIsDir : Bool
deriving DecidableEq, Repr

/-- What the model records at a path of the live rootfs. -/
inductive FileKind
  | charDev00
  | emptyFile
deriving DecidableEq, Repr

/-- The mutable rootfs state: newest binding first. -/
def FS := List (String × FileKind)

instance : DecidableEq FS := inferInstanceAs (DecidableEq (List (String × FileKind)))

/-- Look a path up in the rootfs state. -/
def lookupFS (fs : FS) (p : String) : Option FileKind :=
  ((fs : List (String × FileKind)).find? (fun e => e.1 == p)).map (fun e => e.2)

/-- Record a new node at `p`. -/
def insertFS (fs : FS) (p : String) (k : FileKind) : FS :=
  (p, k) :: (fs : List (String × FileKind))

/-- `os.Remove p` on the rootfs state. -/
def removeFS (fs : FS) (p : String) : FS :=
  (fs : List (String × FileKind)).filter (fun e => e.1 != p)

/-- Errno values relevant to the whiteout encoder. -/
inductive Errno
  | EACCES | EPERM | ENOENT | ENOTDIR | EROFS
deriving DecidableEq, Repr

/-- Go `os.IsNotExist` on a raw errno. -/
def isNotExist (e : Errno) : Bool := e == .ENOENT

/-- An OCI descriptor (only the digest matters to this subsystem). -/
structure Descriptor where
  digest : String
deriving DecidableEq, Repr

/-- `casext.DescriptorPath`. -/
structure DescriptorPath where
  walk : List Descriptor
deriving DecidableEq, Repr

/-- The bundle meta record (`from` is a Lean keyword, hence `from'`). -/
structure BundleMeta where
  from' : DescriptorPath
deriving DecidableEq, Repr

/-- Oracle answers for every external effect of `GenerateSquashfsLayer`. -/
structure Oracles where
  readMeta : Except Errno BundleMeta
  openMtree : Bool
  parseOk : Bool
  walkOk : Bool
  diffsRes : Option (List DiffEntry)
  initFS : FS
  mknod : String → Option Errno
  create : String → Option Errno
  makeSquash : Bool
  addBlob : Except Errno Descriptor
  genManifest : Bool
  writeMeta : Bool

/-- The host path of a diff entry (`path.Join(rootfsPath, diff.Path())`). -/
def joinedPath (rootfsPath : String) (d : DiffEntry) : String :=
  goJoin [rootfsPath, d.path]

/-- The sidecar whiteout path of a diff entry:
`path.Join(rootfsPath, path.Dir(diff.Path()), ".wh." + path.Base(diff.Path()))`. -/
def whPathOf (rootfsPath : String) (d : DiffEntry) : String :=
  goJoin [rootfsPath, goDir d.path, ".wh." ++ goBase d.path]

/-- State threaded through the diff loop of `GenerateSquashfsLayer`. -/
structure LoopState where
  needsLayer : Bool
  paths : ExcludePaths
  missing : List String
  fs : FS
  err : Option Errno
deriving DecidableEq

/-- One iteration of the diff loop: Modified/Extra include the path;
Missing includes the path, attempts the device-node whiteout via `mknod`,
silently skips `ENOENT`/`ENOTDIR`, falls back to the `.wh.` sidecar on any
other failure (fatal only when creating the sidecar itself fails); Same
excludes the path. -/
def stepDiff (rootfsPath : String) (o : Oracles) (st : LoopState) (d : DiffEntry) : LoopState :=
  match d.ty with
  | .Modified =>
    { st with needsLayer := true,
              paths := st.paths.AddInclude (joinedPath rootfsPath d) d.newIsDir }
  | .Extra =>
    { st with needsLayer := true,
              paths := st.paths.AddInclude (joinedPath rootfsPath d) d.newIsDir }
  | .Missing =>
    let p := joinedPath rootfsPath d
    let st1 := { st with needsLayer := true,
                         missing := st.missing ++ [p],
                         paths := st.paths.AddInclude p d.oldIsDir }
    (match o.mknod p with
     | none => { st1 with fs := insertFS st1.fs p .charDev00 }
     | some e =>
       if isNotExist e || e == .ENOTDIR then st1
       else
         match o.create (whPathOf rootfsPath d) with
         | some ce => { st1 with err := some ce }
         | none => { st1 with fs := insertFS st1.fs (whPathOf rootfsPath d) .emptyFile })
  | .Same =>
    { st with paths := st.paths.AddExclude (joinedPath rootfsPath d) }

/-- The diff loop; a fatal whiteout error returns immediately. -/
def processDiffs (rootfsPath : String) (o : Oracles) : LoopState → List DiffEntry → LoopState
  | st, [] => st
  | st, d :: rest =>
    let st' := stepDiff rootfsPath o st d
    match st'.err with
    | some _ => st'
    | none => processDiffs rootfsPath o st' rest

/-- The initial loop state over an oracle-supplied rootfs. -/
def initLoopState (o : Oracles) : LoopState :=
  { needsLayer := false, paths := NewExcludePaths, missing := [], fs := o.initFS, err := none }

/-- Error outcomes of `GenerateSquashfsLayer`. -/
inductive GenErr
  | readMeta (e : Errno)
  | emptyWalk
  | openMtree
  | parseSpec
  | walk
  | compare
  | whiteout (e : Errno)
  | makeSquash
  | addBlob (e : Errno)
  | genManifest
  | writeMeta
deriving DecidableEq, Repr

/-- The observable outcome of `GenerateSquashfsLayer`: its error (if any) and
every externally visible effect. -/
structure GenResult where
  err : Option GenErr
  archiverInvoked : Bool
  blobAdded : Option Descriptor
  manifestGenerated : Option String
  mtreeRemoved : Bool
  persistedMeta : Option BundleMeta
  fs : FS
deriving DecidableEq

/-- The deferred cleanup of the device-node whiteouts (`defer` over the
`missing` list, run on every exit path after the loop). -/
def cleanupMissing (fs : FS) (missing : List String) : FS :=
  missing.foldl removeFS fs

/-- `GenerateSquashfsLayer` of the source as a function of the effect
oracles: read the bundle meta, open and parse the prior manifest (named after
the `from` descriptor's digest), walk and diff, run the whiteout/exclude loop,
return early when no layer is needed, otherwise build the squashfs, add the
blob uncompressed, regenerate the bundle manifest under the new digest name,
remove the old manifest and persist the meta with `from.Walk = [desc]`.
Go panics on an empty `meta.From.Walk` (inside `Descriptor()`); the model
returns the `emptyWalk` error in that case. -/
def GenerateSquashfsLayer (bundlepath : String) (o : Oracles) : GenResult :=
  let noEffect : GenResult :=
    { err := none, archiverInvoked := false, blobAdded := none,
      manifestGenerated := none, mtreeRemoved := false, persistedMeta := none,
      fs := o.initFS }
  match o.readMeta with
  | .error e => { noEffect with err := some (.readMeta e) }
  | .ok meta =>
    match meta.from'.walk.getLast? with
    | none => { noEffect with err := some .emptyWalk }
    | some _ =>
      if !o.openMtree then { noEffect with err := some .openMtree }
      else if !o.parseOk then { noEffect with err := some .parseSpec }
      else if !o.walkOk then { noEffect with err := some .walk }
      else
        match o.diffsRes with
        | none => { noEffect with err := some .compare }
        | some diffs =>
          let rootfsPath := goJoin [bundlepath, "rootfs"]
          let st := processDiffs rootfsPath o (initLoopState o) diffs
          let fsDone := cleanupMissing st.fs st.missing
          match st.err with
          | some e =>
            { noEffect with err := some (.whiteout e), fs := fsDone }
          | none =>
            if !st.needsLayer then { noEffect with fs := fsDone }
            else if !o.makeSquash then
              { noEffect with err := some .makeSquash, archiverInvoked := true, fs := fsDone }
            else
              match o.addBlob with
              | .error e =>
                { noEffect with err := some (.addBlob e), archiverInvoked := true, fs := fsDone }
              | .ok desc =>
                let newName := replaceColonUnder desc.digest ++ ".mtree"
                if !o.genManifest then
                  { noEffect with err := some .genManifest, archiverInvoked := true,
                                  blobAdded := some desc, fs := fsDone }
                else
                  let meta' : BundleMeta := { meta with from' := ⟨[desc]⟩ }
                  if !o.writeMeta then
                    { noEffect with err := some .writeMeta, archiverInvoked := true,
                                    blobAdded := some desc, manifestGenerated := some newName,
                                    mtreeRemoved := true, fs := fsDone }
                  else
                    { err := none, archiverInvoked := true, blobAdded := some desc,
                      manifestGenerated := some newName, mtreeRemoved := true,
                      persistedMeta := some meta', fs := fsDone }

/-! ### Extraction: `which`, `whichSearch`, `ExtractSingleSquash` -/

/-- `whichSearch` of the source: a name containing a slash is looked up as an
absolute or `./`-relative path, a bare name is joined against every entry of
the search path; the first candidate passing an `X_OK` access check (the
`canExec` oracle) wins, otherwise `""`. -/
def whichSearch (name : String) (paths : List String) (canExec : String → Bool) : String :=
  let search :=
    if name.data.contains '/' then
      if hasPrefixGo name "/" then [name] else ["./" ++ name]
    else paths.map (fun p => goJoin [p, name])
  match search.find? canExec with
  | some f => f
  | none => ""

/-- `which` of the source: search the `:`-separated `PATH` environment value. -/
def which (name : String) (pathEnv : String) (canExec : String → Bool) : String :=
  whichSearch name ((splitCharL ':' pathEnv.data).map (fun l => (⟨l⟩ : String))) canExec

/-- The error message of `ExtractSingleSquash` when the btrfs backend is
selected and `squashtool` is not on `PATH`. -/
def squashtoolErrMsg : String :=
  "must have squashtool (https://github.com/anuvu/squashfs) to correctly extract squashfs using btrfs storage backend"

/-- The observable outcome of `ExtractSingleSquash`. -/
structure ExtractResult where
  dirCreated : Bool
  err : Option String
  invoked : List String
deriving DecidableEq, Repr

/-- `ExtractSingleSquash` of the source: `os.MkdirAll(extractDir, 0755)`
first, then — for the btrfs backend only — require `squashtool` on `PATH`
(hard error naming the tool and its source URL otherwise) and invoke it with
the metadata-preserving flags; any other backend uses `unsquashfs`. -/
def ExtractSingleSquash (squashFile extractDir storageType : String)
    (mkdirOk : Bool) (pathEnv : String) (canExec : String → Bool)
    (runOk : Bool) : ExtractResult :=
  if !mkdirOk then { dirCreated := false, err := some "mkdir", invoked := [] }
  else if storageType = "btrfs" && which "squashtool" pathEnv canExec == "" then
    { dirCreated := true, err := some squashtoolErrMsg, invoked := [] }
  else
    let uCmd :=
      if storageType = "btrfs" then
        ["squashtool", "extract", "--whiteouts", "--perms", "--devs", "--sockets",
         "--owners", squashFile, extractDir]
      else
        ["unsquashfs", "-f", "-d", extractDir, squashFile]
    { dirCreated := true, err := if runOk then none else some "run", invoked := uCmd }

/-! ### Basic lemmas about the exclude-set model -/

theorem mem_insertKey {l : List String} {k q : String} :
    q ∈ insertKey l k ↔ q ∈ l ∨ q = k := by
  unfold insertKey
  split
  · rename_i hk
    constructor
    · exact Or.inl
    · rintro (h | rfl)
      · exact h
      · exact hk
  · simp [List.mem_append]

theorem mem_eraseKey {l : List String} {k q : String} :
    q ∈ eraseKey l k ↔ q ∈ l ∧ q ≠ k := by
  unfold eraseKey
  simp [List.mem_filter]

/-- The `incArgs` of a call sequence: the `orig` arguments of its
`add_include` calls, in order. -/
def incArgs : List PathCall → List String
  | [] => []
  | .exc _ :: rest => incArgs rest
  | .inc orig _ :: rest => orig :: incArgs rest

theorem AddExclude_include' (eps : ExcludePaths) (p : String) :
    (eps.AddExclude p).include' = eps.include' := by
  unfold ExcludePaths.AddExclude
  split <;> rfl

theorem AddInclude_include' (eps : ExcludePaths) (orig : String) (isDir : Bool) :
    (eps.AddInclude orig isDir).include' = eps.include' ++ [orig] := rfl

theorem foldl_applyCall_include' (cs : List PathCall) :
    ∀ eps : ExcludePaths, (cs.foldl applyCall eps).include' = eps.include' ++ incArgs cs := by
  induction cs with
  | nil => intro eps; simp [incArgs]
  | cons c rest ih =>
    intro eps
    cases c with
    | exc p =>
      rw [List.foldl_cons, ih]
      simp [applyCall, AddExclude_include', incArgs]
    | inc orig isDir =>
      rw [List.foldl_cons, ih]
      simp [applyCall, AddInclude_include', incArgs]

/-! ### Claim C7: include-list minimality -/

/-- Claim C7 (counterexample): the include list retains redundant entries.
After `add_include("/a", true)` followed by `add_include("/a/b", true)` both
paths are in the include list although `/a` is a strict ancestor directory of
`/a/b`, contradicting the claimed invariant. -/
theorem C7_counterexample :
    "/a" ∈ ((NewExcludePaths.AddInclude "/a" true).AddInclude "/a/b" true).include' ∧
    "/a/b" ∈ ((NewExcludePaths.AddInclude "/a" true).AddInclude "/a/b" true).include' ∧
    isStrictDirAncestor "/a" "/a/b" = true := by decide

/-- Claim C7 (amended): `add_include` retains every added path: after any
call sequence the include list is exactly the sequence of `orig` arguments of
the `add_include` calls, in order — redundant (ancestor) inclusions included. -/
theorem C7_include_retained (cs : List PathCall) :
    (runCalls cs).include' = incArgs cs := by
  unfold runCalls
  rw [foldl_applyCall_include']
  rfl

/-! ### Claim C6: AddExclude behaviour -/

/-- Claim C6 (counterexample): the no-op test of `add_exclude` is a *string*
prefix test, not a directory-hierarchy one.  With `/usr` included, no
included path has `/us` as a directory-hierarchy prefix, so the claim demands
that `add_exclude("/us")` add `/us` to the exclude set; the code leaves the
exclude set empty because `"/us"` is a string prefix of `"/usr"`. -/
theorem C6_counterexample :
    (∀ i ∈ (NewExcludePaths.AddInclude "/usr" true).include', isDirAncestor "/us" i = false) ∧
    ((NewExcludePaths.AddInclude "/usr" true).AddExclude "/us").exclude = [] ∧
    "/us" ∉ ((NewExcludePaths.AddInclude "/usr" true).AddExclude "/us").exclude := by decide

/-- Claim C6 (amended): `add_exclude(p)` leaves the exclude set unchanged when
`p` is a **string** prefix of some already-included path, and otherwise adds
exactly `p` to the exclude set; the include list is unchanged in both cases. -/
theorem C6_addExclude_characterization (eps : ExcludePaths) (p q : String) :
    ((eps.AddExclude p).include' = eps.include') ∧
    (q ∈ (eps.AddExclude p).exclude ↔
      (q ∈ eps.exclude ∨ (q = p ∧ ∀ inc ∈ eps.include', hasPrefixGo inc p = false))) := by
  refine ⟨AddExclude_include' eps p, ?_⟩
  unfold ExcludePaths.AddExclude
  by_cases h : eps.include'.any (fun inc => hasPrefixGo inc p)
  · rw [if_pos h]
    rcases List.any_eq_true.mp h with ⟨inc, hinc, hpre⟩
    constructor
    · exact Or.inl
    · rintro (hq | ⟨rfl, hall⟩)
      · exact hq
      · exact absurd (hall inc hinc) (by simp [hpre])
  · rw [if_neg h]
    have hall : ∀ inc ∈ eps.include', hasPrefixGo inc p = false := by
      intro inc hinc
      by_contra hc
      exact h (List.any_eq_true.mpr ⟨inc, hinc, by simpa using hc⟩)
    show q ∈ insertKey eps.exclude p ↔ _
    rw [mem_insertKey]
    constructor
    · rintro (hq | rfl)
      · exact Or.inl hq
      · exact Or.inr ⟨rfl, hall⟩
    · rintro (hq | ⟨rfl, _⟩)
      · exact Or.inl hq
      · exact Or.inr rfl

/-! ### Claim C10: rendering never yields an empty exclude list -/

/-- Claim C10 (confirmed): `ExcludePaths.String` always ends with a
terminating blank line and is never empty — even for an empty exclude set —
so `MakeSquashfs` with any non-nil `ExcludePaths` always writes the
exclude-list temp file and passes `-ef <excludes_file>` to `mksquashfs`. -/
theorem C10_render_always_ef (eps : ExcludePaths) (rootfs excludesName tmpName : String) :
    (ExcludePaths.String eps).data ≠ [] ∧
    (ExcludePaths.String eps).data.getLast? = some '\n' ∧
    (MakeSquashfs rootfs (some eps) excludesName tmpName).excludesFileWritten = true ∧
    "-ef" ∈ (MakeSquashfs rootfs (some eps) excludesName tmpName).args ∧
    excludesName ∈ (MakeSquashfs rootfs (some eps) excludesName tmpName).args := by
  have hdata : (ExcludePaths.String eps).data =
      (eps.exclude.foldl (fun buf p => buf ++ p ++ "\n") "").data ++ ['\n'] := by
    unfold ExcludePaths.String
    rw [String.data_append]
  have hne : (ExcludePaths.String eps).data ≠ [] := by
    rw [hdata]; simp
  have hlen : (ExcludePaths.String eps).length ≠ 0 := by
    intro h
    exact hne (by simpa [String.length] using List.length_eq_zero.mp h)
  refine ⟨hne, by rw [hdata]; exact List.getLast?_concat _, ?_, ?_, ?_⟩ <;>
    simp [MakeSquashfs, hlen]

/-! ### Lemmas about the whiteout-encoding step -/

theorem lookupFS_insert_self (fs : FS) (p : String) (k : FileKind) :
    lookupFS (insertFS fs p k) p = some k := by
  simp [lookupFS, insertFS, List.find?]

theorem lookupFS_insert_other (fs : FS) (p q : String) (k : FileKind) (h : q ≠ p) :
    lookupFS (insertFS fs p k) q = lookupFS fs q := by
  simp only [lookupFS, insertFS, List.find?]
  have : (p == q) = false := by
    simp [beq_iff_eq]
    exact fun he => h he.symm
  simp [this]

/-- A step of the diff loop touches the rootfs only at the entry's host path
(device-node whiteout) or its sidecar path. -/
theorem stepDiff_fs_other (rootfsPath : String) (o : Oracles) (st : LoopState) (d : DiffEntry)
    (q : String) (h1 : q ≠ joinedPath rootfsPath d) (h2 : q ≠ whPathOf rootfsPath d) :
    lookupFS (stepDiff rootfsPath o st d).fs q = lookupFS st.fs q := by
  unfold stepDiff
  cases d.ty
  case Modified => rfl
  case Extra => rfl
  case Same => rfl
  case Missing =>
    cases hmk : o.mknod (joinedPath rootfsPath d) with
    | none =>
      simp only [hmk]
      exact lookupFS_insert_other _ _ _ _ h1
    | some e =>
      simp only [hmk]
      split
      · rfl
      · cases hcr : o.create (whPathOf rootfsPath d) with
        | some ce => simp only [hcr]
        | none =>
          simp only [hcr]
          exact lookupFS_insert_other _ _ _ _ h2

/-- The diff loop touches the rootfs only at the host and sidecar paths of
its entries. -/
theorem processDiffs_fs_other (rootfsPath : String) (o : Oracles) :
    ∀ (diffs : List DiffEntry) (st : LoopState) (q : String),
      (∀ d ∈ diffs, q ≠ joinedPath rootfsPath d ∧ q ≠ whPathOf rootfsPath d) →
      lookupFS (processDiffs rootfsPath o st diffs).fs q = lookupFS st.fs q := by
  intro diffs
  induction diffs with
  | nil => intro st q _; rfl
  | cons d rest ih =>
    intro st q hq
    have hd := hq d (List.mem_cons_self d rest)
    have hstep := stepDiff_fs_other rootfsPath o st d q hd.1 hd.2
    show lookupFS (match (stepDiff rootfsPath o st d).err with
      | some _ => stepDiff rootfsPath o st d
      | none => processDiffs rootfsPath o (stepDiff rootfsPath o st d) rest).fs q = _
    cases (stepDiff rootfsPath o st d).err with
    | some e => exact hstep
    | none =>
      rw [ih (stepDiff rootfsPath o st d) q (fun d' hd' => hq d' (List.mem_cons_of_mem d hd'))]
      exact hstep

/-! ### Claim C2: fatality of unexpected mknod errors -/

/-- Effect oracle for the C2 counterexample: a single Missing entry whose
`mknod` fails with `EROFS` — an error that is neither permission-denied,
no-such-file, nor not-a-directory — while every other effect succeeds. -/
def oracleC2 : Oracles :=
  { readMeta := .ok ⟨⟨[⟨"sha256:aaa"⟩]⟩⟩,
    openMtree := true, parseOk := true, walkOk := true,
    diffsRes := some [⟨.Missing, "etc/hosts", false, false⟩],
    initFS := [],
    mknod := fun _ => some .EROFS,
    create := fun _ => none,
    makeSquash := true,
    addBlob := .ok ⟨"sha256:bbb"⟩,
    genManifest := true,
    writeMeta := true }

/-- Claim C2 (counterexample): when `mknod` fails with `EROFS` (neither
permission-denied, no-such-file, nor not-a-directory) the source does *not*
fail fatally: it falls back to the sidecar whiteout
(`/bundle/rootfs/etc/.wh.hosts` is created) and `GenerateSquashfsLayer`
completes successfully. -/
theorem C2_counterexample :
    (GenerateSquashfsLayer "/bundle" oracleC2).err = none ∧
    lookupFS (GenerateSquashfsLayer "/bundle" oracleC2).fs "/bundle/rootfs/etc/.wh.hosts" =
      some .emptyFile := by decide

/-- Claim C2 (amended): for a Missing entry whose `mknod` fails with an error
that is neither no-such-file nor not-a-directory (permission-denied included),
the encoder falls back to the sidecar form: the step is fatal exactly when
creating the sidecar file itself fails, and on fallback success the sidecar
exists and the loop continues. -/
theorem C2_mknod_fallback (rootfsPath : String) (o : Oracles) (st : LoopState) (d : DiffEntry)
    (e : Errno) (hst : st.err = none) (hty : d.ty = .Missing)
    (hmk : o.mknod (joinedPath rootfsPath d) = some e)
    (hne1 : isNotExist e = false) (hne2 : e ≠ .ENOTDIR) :
    (((stepDiff rootfsPath o st d).err.isSome) ↔ (o.create (whPathOf rootfsPath d)).isSome) ∧
    (o.create (whPathOf rootfsPath d) = none →
      lookupFS (stepDiff rootfsPath o st d).fs (whPathOf rootfsPath d) = some .emptyFile) ∧
    (∀ ce, o.create (whPathOf rootfsPath d) = some ce →
      (stepDiff rootfsPath o st d).err = some ce) := by
  have hcond : (isNotExist e || e == Errno.ENOTDIR) = false := by
    simp [hne1, hne2]
  unfold stepDiff
  rw [hty]
  simp only [hmk, hcond, Bool.false_eq_true, if_false]
  cases hcr : o.create (whPathOf rootfsPath d) with
  | some ce => simp [hst, hcr]
  | none => simp [hst, hcr, lookupFS_insert_self]

/-- Witness for `C2_mknod_fallback` at a concrete input. -/
theorem C2_mknod_fallback_witness :
    ((initLoopState oracleC2).err = none ∧
     (⟨.Missing, "etc/hosts", false, false⟩ : DiffEntry).ty = .Missing ∧
     oracleC2.mknod (joinedPath "/bundle/rootfs" ⟨.Missing, "etc/hosts", false, false⟩) =
       some .EROFS ∧
     isNotExist .EROFS = false ∧ Errno.EROFS ≠ .ENOTDIR) ∧
    ((((stepDiff "/bundle/rootfs" oracleC2 (initLoopState oracleC2)
          ⟨.Missing, "etc/hosts", false, false⟩).err.isSome) ↔
        (oracleC2.create (whPathOf "/bundle/rootfs" ⟨.Missing, "etc/hosts", false, false⟩)).isSome) ∧
     (oracleC2.create (whPathOf "/bundle/rootfs" ⟨.Missing, "etc/hosts", false, false⟩) = none →
       lookupFS (stepDiff "/bundle/rootfs" oracleC2 (initLoopState oracleC2)
           ⟨.Missing, "etc/hosts", false, false⟩).fs
           (whPathOf "/bundle/rootfs" ⟨.Missing, "etc/hosts", false, false⟩) = some .emptyFile) ∧
     (∀ ce, oracleC2.create (whPathOf "/bundle/rootfs" ⟨.Missing, "etc/hosts", false, false⟩) =
         some ce →
       (stepDiff "/bundle/rootfs" oracleC2 (initLoopState oracleC2)
           ⟨.Missing, "etc/hosts", false, false⟩).err = some ce)) :=
  ⟨⟨by decide, by decide, by decide, by decide, by decide⟩,
   C2_mknod_fallback "/bundle/rootfs" oracleC2 (initLoopState oracleC2)
     ⟨.Missing, "etc/hosts", false, false⟩ .EROFS (by decide) (by decide) (by decide)
     (by decide) (by decide)⟩

/-! ### Claim C8: the unprivileged sidecar fallback -/

/-- Effect oracle for C8: `mknod` fails with permission denied, sidecar
creation succeeds. -/
def oracleC8 : Oracles :=
  { readMeta := .ok ⟨⟨[⟨"sha256:aaa"⟩]⟩⟩,
    openMtree := true, parseOk := true, walkOk := true,
    diffsRes := some [⟨.Missing, "etc/hosts", false, false⟩],
    initFS := [],
    mknod := fun _ => some .EACCES,
    create := fun _ => none,
    makeSquash := true,
    addBlob := .ok ⟨"sha256:bbb"⟩,
    genManifest := true,
    writeMeta := true }

/-- Claim C8 (counterexample): on permission-denied fallback the sidecar file
is created, but no include decision for the *sidecar* path is emitted into
the ExcludeSet — the include list holds only the original host path. -/
theorem C8_counterexample :
    lookupFS (processDiffs "/r" oracleC8 (initLoopState oracleC8)
        [⟨.Missing, "etc/hosts", false, false⟩]).fs "/r/etc/.wh.hosts" = some .emptyFile ∧
    (processDiffs "/r" oracleC8 (initLoopState oracleC8)
        [⟨.Missing, "etc/hosts", false, false⟩]).paths.include' = ["/r/etc/hosts"] ∧
    "/r/etc/.wh.hosts" ∉ (processDiffs "/r" oracleC8 (initLoopState oracleC8)
        [⟨.Missing, "etc/hosts", false, false⟩]).paths.include' := by decide

/-- Claim C8 (amended): for a Missing entry whose device-node whiteout fails
with permission denied, the encoder creates the empty sidecar file at
`parent(p)/.wh.basename(p)`; the include decision emitted into the ExcludeSet
is for the *original* path `p` (with the old side's is-directory bit), not
for the sidecar path. -/
theorem C8_sidecar_fallback (rootfsPath : String) (o : Oracles) (st : LoopState) (d : DiffEntry)
    (hty : d.ty = .Missing)
    (hmk : o.mknod (joinedPath rootfsPath d) = some .EACCES)
    (hcr : o.create (whPathOf rootfsPath d) = none) :
    lookupFS (stepDiff rootfsPath o st d).fs (whPathOf rootfsPath d) = some .emptyFile ∧
    (stepDiff rootfsPath o st d).paths =
      st.paths.AddInclude (joinedPath rootfsPath d) d.oldIsDir := by
  unfold stepDiff
  rw [hty]
  simp only [hmk, hcr, isNotExist]
  exact ⟨lookupFS_insert_self _ _ _, rfl⟩

/-- Witness for `C8_sidecar_fallback` at a concrete input. -/
theorem C8_sidecar_fallback_witness :
    ((⟨.Missing, "etc/hosts", false, false⟩ : DiffEntry).ty = .Missing ∧
     oracleC8.mknod (joinedPath "/r" ⟨.Missing, "etc/hosts", false, false⟩) = some .EACCES ∧
     oracleC8.create (whPathOf "/r" ⟨.Missing, "etc/hosts", false, false⟩) = none) ∧
    (lookupFS (stepDiff "/r" oracleC8 (initLoopState oracleC8)
        ⟨.Missing, "etc/hosts", false, false⟩).fs
        (whPathOf "/r" ⟨.Missing, "etc/hosts", false, false⟩) = some .emptyFile ∧
     (stepDiff "/r" oracleC8 (initLoopState oracleC8)
        ⟨.Missing, "etc/hosts", false, false⟩).paths =
      (initLoopState oracleC8).paths.AddInclude
        (joinedPath "/r" ⟨.Missing, "etc/hosts", false, false⟩)
        (⟨.Missing, "etc/hosts", false, false⟩ : DiffEntry).oldIsDir) :=
  ⟨⟨by decide, by decide, by decide⟩,
   C8_sidecar_fallback "/r" oracleC8 (initLoopState oracleC8)
     ⟨.Missing, "etc/hosts", false, false⟩ (by decide) (by decide) (by decide)⟩

/-! ### Claim C9: whiteout fallback completeness -/

/-- Effect oracle for the C9 counterexample: `mknod` fails with `ENOENT`
(the parent of the Missing entry was itself removed), so the encoder silently
skips the entry. -/
def oracleC9 : Oracles :=
  { readMeta := .ok ⟨⟨[⟨"sha256:aaa"⟩]⟩⟩,
    openMtree := true, parseOk := true, walkOk := true,
    diffsRes := some [⟨.Missing, "etc/hosts", false, false⟩],
    initFS := [],
    mknod := fun _ => some .ENOENT,
    create := fun _ => none,
    makeSquash := true,
    addBlob := .ok ⟨"sha256:bbb"⟩,
    genManifest := true,
    writeMeta := true }

/-- Claim C9 (counterexample): when `mknod` fails with `ENOENT` the loop
completes without a fatal error, yet afterwards the original host path is
*not* a character device 0/0 and the sidecar `.wh.` file does *not* exist —
neither whiteout form was materialized. -/
theorem C9_counterexample :
    (processDiffs "/r" oracleC9 (initLoopState oracleC9)
        [⟨.Missing, "etc/hosts", false, false⟩]).err = none ∧
    lookupFS (processDiffs "/r" oracleC9 (initLoopState oracleC9)
        [⟨.Missing, "etc/hosts", false, false⟩]).fs
        (joinedPath "/r" ⟨.Missing, "etc/hosts", false, false⟩) = none ∧
    lookupFS (processDiffs "/r" oracleC9 (initLoopState oracleC9)
        [⟨.Missing, "etc/hosts", false, false⟩]).fs
        (whPathOf "/r" ⟨.Missing, "etc/hosts", false, false⟩) = none := by decide

/-- Claim C9 (amended): for every Missing diff entry, after the
whiteout-encoding loop completes without a fatal error, either the entry's
host path carries the character-device-0/0 marker, or its `.wh.` sidecar
exists, or that entry's `mknod` failed with no-such-file / not-a-directory
(the silently-skipped case: an ancestor's own marker must suffice).  The
hypothesis that host and sidecar paths are pairwise distinct reflects the
diff invariant that each path occurs exactly once. -/
theorem C9_whiteout_completeness (rootfsPath : String) (o : Oracles) :
    ∀ (diffs : List DiffEntry) (st0 : LoopState) (d : DiffEntry),
      (diffs.map (joinedPath rootfsPath) ++ diffs.map (whPathOf rootfsPath)).Nodup →
      st0.err = none → d ∈ diffs → d.ty = .Missing →
      (processDiffs rootfsPath o st0 diffs).err = none →
      lookupFS (processDiffs rootfsPath o st0 diffs).fs (joinedPath rootfsPath d) =
          some .charDev00 ∨
      lookupFS (processDiffs rootfsPath o st0 diffs).fs (whPathOf rootfsPath d) =
          some .emptyFile ∨
      (∃ e, o.mknod (joinedPath rootfsPath d) = some e ∧ (e = .ENOENT ∨ e = .ENOTDIR)) := by
  intro diffs
  induction diffs with
  | nil => intro st0 d _ _ hmem; exact absurd hmem (List.not_mem_nil d)
  | cons d' rest ih =>
    intro st0 d hnd hst0 hmem hty herr
    have hstep : processDiffs rootfsPath o st0 (d' :: rest) =
        match (stepDiff rootfsPath o st0 d').err with
        | some _ => stepDiff rootfsPath o st0 d'
        | none => processDiffs rootfsPath o (stepDiff rootfsPath o st0 d') rest := rfl
    cases hse : (stepDiff rootfsPath o st0 d').err with
    | some e =>
      rw [hstep, hse] at herr
      simp at herr
      rw [herr] at hse
      exact absurd hse (by simp)
    | none =>
      rw [hstep, hse] at herr ⊢
      simp only at herr ⊢
      have hnd' : ((d' :: rest).map (joinedPath rootfsPath) ++
          (d' :: rest).map (whPathOf rootfsPath)) =
          joinedPath rootfsPath d' :: (rest.map (joinedPath rootfsPath) ++
            whPathOf rootfsPath d' :: rest.map (whPathOf rootfsPath)) := by
        simp
      rw [hnd'] at hnd
      rcases List.nodup_cons.mp hnd with ⟨hjne, hnd2⟩
      rcases List.mem_cons.mp hmem with rfl | hdin
      · -- the target entry is the head
        have hjoined_rest : ∀ d'' ∈ rest, joinedPath rootfsPath d ≠ joinedPath rootfsPath d'' ∧
            joinedPath rootfsPath d ≠ whPathOf rootfsPath d'' := by
          intro d'' hd''
          constructor
          · intro he
            exact hjne (by rw [he]; exact List.mem_append_left _ (List.mem_map_of_mem _ hd''))
          · intro he
            exact hjne (by
              rw [he]
              exact List.mem_append_right _ (List.mem_cons_of_mem _ (List.mem_map_of_mem _ hd'')))
        have hwh_head : whPathOf rootfsPath d ∉ rest.map (joinedPath rootfsPath) ∧
            whPathOf rootfsPath d ∉ rest.map (whPathOf rootfsPath) := by
          rcases (List.nodup_append.mp hnd2) with ⟨_, hndw, hdisj⟩
          exact ⟨fun hc => hdisj hc (List.mem_cons_self _ _),
                 (List.nodup_cons.mp hndw).1⟩
        have hwh_rest : ∀ d'' ∈ rest, whPathOf rootfsPath d ≠ joinedPath rootfsPath d'' ∧
            whPathOf rootfsPath d ≠ whPathOf rootfsPath d'' := by
          intro d'' hd''
          constructor
          · intro he; exact hwh_head.1 (by rw [he]; exact List.mem_map_of_mem _ hd'')
          · intro he; exact hwh_head.2 (by rw [he]; exact List.mem_map_of_mem _ hd'')
        -- analyse the step on the head entry
        unfold stepDiff at hse ⊢
        rw [hty] at hse ⊢
        cases hmk : o.mknod (joinedPath rootfsPath d) with
        | none =>
          left
          rw [processDiffs_fs_other rootfsPath o rest _ _ hjoined_rest]
          simp only [hmk]
          exact lookupFS_insert_self _ _ _
        | some e =>
          by_cases hskip : (isNotExist e || e == Errno.ENOTDIR) = true
          · right; right
            refine ⟨e, by simp [hmk], ?_⟩
            rcases Bool.or_eq_true_iff.mp hskip with h | h
            · exact Or.inl (by simpa [isNotExist] using h)
            · exact Or.inr (by simpa using h)
          · cases hcr : o.create (whPathOf rootfsPath d) with
            | some ce =>
              exfalso
              simp only [hmk, hcr, hskip] at hse
              rw [if_neg (by simp [hskip])] at hse
              simp at hse
            | none =>
              right; left
              rw [processDiffs_fs_other rootfsPath o rest _ _ hwh_rest]
              simp only [hmk, hcr]
              rw [if_neg (by simp [hskip])]
              exact lookupFS_insert_self _ _ _
      · -- the target entry is in the tail
        have hndtail : (rest.map (joinedPath rootfsPath) ++
            rest.map (whPathOf rootfsPath)).Nodup := by
          rcases List.nodup_append.mp hnd2 with ⟨hndj, hndw, hdisj⟩
          exact List.nodup_append.mpr ⟨hndj, (List.nodup_cons.mp hndw).2,
            fun a ha hb => hdisj ha (List.mem_cons_of_mem _ hb)⟩
        exact ih (stepDiff rootfsPath o st0 d') d hndtail hse hdin hty herr

/-- Witness for `C9_whiteout_completeness` at a concrete input (oracle
`oracleC8`: permission-denied fallback, sidecar created). -/
theorem C9_whiteout_completeness_witness :
    (([⟨.Missing, "etc/hosts", false, false⟩] : List DiffEntry).map (joinedPath "/r") ++
       ([⟨.Missing, "etc/hosts", false, false⟩] : List DiffEntry).map (whPathOf "/r")).Nodup ∧
    (initLoopState oracleC8).err = none ∧
    (⟨.Missing, "etc/hosts", false, false⟩ : DiffEntry) ∈
      ([⟨.Missing, "etc/hosts", false, false⟩] : List DiffEntry) ∧
    (⟨.Missing, "etc/hosts", false, false⟩ : DiffEntry).ty = .Missing ∧
    (processDiffs "/r" oracleC8 (initLoopState oracleC8)
        [⟨.Missing, "etc/hosts", false, false⟩]).err = none ∧
    (lookupFS (processDiffs "/r" oracleC8 (initLoopState oracleC8)
        [⟨.Missing, "etc/hosts", false, false⟩]).fs
        (joinedPath "/r" ⟨.Missing, "etc/hosts", false, false⟩) = some .charDev00 ∨
     lookupFS (processDiffs "/r" oracleC8 (initLoopState oracleC8)
        [⟨.Missing, "etc/hosts", false, false⟩]).fs
        (whPathOf "/r" ⟨.Missing, "etc/hosts", false, false⟩) = some .emptyFile ∨
     (∃ e, oracleC8.mknod (joinedPath "/r" ⟨.Missing, "etc/hosts", false, false⟩) = some e ∧
        (e = .ENOENT ∨ e = .ENOTDIR))) :=
  ⟨by decide, by decide, by decide, by decide, by decide,
   C9_whiteout_completeness "/r" oracleC8 [⟨.Missing, "etc/hosts", false, false⟩]
     (initLoopState oracleC8) ⟨.Missing, "etc/hosts", false, false⟩
     (by decide) (by decide) (by decide) (by decide) (by decide)⟩

/-! ### Claim C3: missing squashtool under the btrfs backend -/

/-- Claim C3 (counterexample): with the btrfs backend and no `squashtool` on
`PATH`, `ExtractSingleSquash` does return the hard error naming the tool and
its source URL — but the extract directory *is* created by the call, because
`os.MkdirAll` runs before the tool check. -/
theorem C3_counterexample :
    (ExtractSingleSquash "/tmp/img.squashfs" "/dst" "btrfs" true "/usr/bin"
        (fun _ => false) true).err = some squashtoolErrMsg ∧
    (ExtractSingleSquash "/tmp/img.squashfs" "/dst" "btrfs" true "/usr/bin"
        (fun _ => false) true).dirCreated = true := by decide

/-- Claim C3 (amended): with the btrfs backend and no `squashtool` on `PATH`,
`ExtractSingleSquash` returns a hard error whose message names `squashtool`
and its source URL, no extraction tool is invoked — and the (empty) extract
directory *is* created by the call, since the directory is made before the
tool check. -/
theorem C3_squashtool_missing (squashFile extractDir pathEnv : String)
    (canExec : String → Bool) (runOk : Bool)
    (hwhich : which "squashtool" pathEnv canExec = "") :
    (ExtractSingleSquash squashFile extractDir "btrfs" true pathEnv canExec runOk).err =
      some squashtoolErrMsg ∧
    strContains squashtoolErrMsg "squashtool" = true ∧
    strContains squashtoolErrMsg "https://github.com/anuvu/squashfs" = true ∧
    (ExtractSingleSquash squashFile extractDir "btrfs" true pathEnv canExec runOk).invoked = [] ∧
    (ExtractSingleSquash squashFile extractDir "btrfs" true pathEnv canExec runOk).dirCreated =
      true := by
  unfold ExtractSingleSquash
  rw [hwhich]
  refine ⟨by simp, by decide, by decide, by simp, by simp⟩

/-- Witness for `C3_squashtool_missing` at a concrete input. -/
theorem C3_squashtool_missing_witness :
    which "squashtool" "/usr/bin" (fun _ => false) = "" ∧
    ((ExtractSingleSquash "/tmp/img.squashfs" "/dst" "btrfs" true "/usr/bin"
        (fun _ => false) true).err = some squashtoolErrMsg ∧
     strContains squashtoolErrMsg "squashtool" = true ∧
     strContains squashtoolErrMsg "https://github.com/anuvu/squashfs" = true ∧
     (ExtractSingleSquash "/tmp/img.squashfs" "/dst" "btrfs" true "/usr/bin"
        (fun _ => false) true).invoked = [] ∧
     (ExtractSingleSquash "/tmp/img.squashfs" "/dst" "btrfs" true "/usr/bin"
        (fun _ => false) true).dirCreated = true) :=
  ⟨by decide,
   C3_squashtool_missing "/tmp/img.squashfs" "/dst" "/usr/bin" (fun _ => false) true
     (by decide)⟩

/-! ### Claim C4: empty-diff idempotence -/

/-- A diff loop over `Same` entries only changes nothing but the exclude
set: `needs_layer`, the cleanup list, the rootfs and the error state are
untouched. -/
theorem processDiffs_all_same (rootfsPath : String) (o : Oracles) :
    ∀ (diffs : List DiffEntry) (st : LoopState),
      (∀ d ∈ diffs, d.ty = .Same) →
      (processDiffs rootfsPath o st diffs).needsLayer = st.needsLayer ∧
      (processDiffs rootfsPath o st diffs).missing = st.missing ∧
      (processDiffs rootfsPath o st diffs).fs = st.fs ∧
      (processDiffs rootfsPath o st diffs).err = st.err := by
  intro diffs
  induction diffs with
  | nil => intro st _; exact ⟨rfl, rfl, rfl, rfl⟩
  | cons d rest ih =>
    intro st hall
    have hd : d.ty = .Same := hall d (List.mem_cons_self d rest)
    have hstepeq : stepDiff rootfsPath o st d =
        ⟨st.needsLayer, st.paths.AddExclude (joinedPath rootfsPath d),
          st.missing, st.fs, st.err⟩ := by
      unfold stepDiff
      rw [hd]
    have hcons : processDiffs rootfsPath o st (d :: rest) =
        match (stepDiff rootfsPath o st d).err with
        | some _ => stepDiff rootfsPath o st d
        | none => processDiffs rootfsPath o (stepDiff rootfsPath o st d) rest := rfl
    rw [hcons, hstepeq]
    cases hse : st.err with
    | some e => exact ⟨rfl, rfl, rfl, rfl⟩
    | none =>
      exact ih ⟨st.needsLayer, st.paths.AddExclude (joinedPath rootfsPath d),
        st.missing, st.fs, none⟩
        (fun d' hd' => hall d' (List.mem_cons_of_mem d hd'))

/-- Claim C4 (confirmed): when every filtered diff entry is `Same`,
`GenerateSquashfsLayer` returns success with no mutation: the archiver is not
invoked, no blob is added, the bundle meta is not written, the prior manifest
file stays in place, and the rootfs is untouched. -/
theorem C4_empty_diff_idempotence (bundlepath : String) (o : Oracles)
    (m : BundleMeta) (d0 : Descriptor) (ds : List DiffEntry)
    (h1 : o.readMeta = .ok m) (h2 : m.from'.walk.getLast? = some d0)
    (h3 : o.openMtree = true) (h4 : o.parseOk = true) (h5 : o.walkOk = true)
    (h6 : o.diffsRes = some ds) (h7 : ∀ d ∈ ds, d.ty = .Same) :
    GenerateSquashfsLayer bundlepath o =
      { err := none, archiverInvoked := false, blobAdded := none,
        manifestGenerated := none, mtreeRemoved := false, persistedMeta := none,
        fs := o.initFS } := by
  rcases processDiffs_all_same (goJoin [bundlepath, "rootfs"]) o ds (initLoopState o) h7 with
    ⟨hn, hm, hf, he⟩
  simp only [initLoopState] at hn hm hf he
  simp only [GenerateSquashfsLayer, h1, h2, h3, h4, h5, h6, Bool.not_true, Bool.false_eq_true,
    if_false, initLoopState, he, hf, hm, hn, cleanupMissing, List.foldl_nil]
  simp

/-- Effect oracle for the C4 witness: a single `Same` entry. -/
def oracleC4 : Oracles :=
  { readMeta := .ok ⟨⟨[⟨"sha256:aaa"⟩]⟩⟩,
    openMtree := true, parseOk := true, walkOk := true,
    diffsRes := some [⟨.Same, "etc", true, true⟩],
    initFS := [],
    mknod := fun _ => none,
    create := fun _ => none,
    makeSquash := true,
    addBlob := .ok ⟨"sha256:bbb"⟩,
    genManifest := true,
    writeMeta := true }

/-- Witness for `C4_empty_diff_idempotence` at a concrete input. -/
theorem C4_empty_diff_idempotence_witness :
    (oracleC4.readMeta = .ok ⟨⟨[⟨"sha256:aaa"⟩]⟩⟩ ∧
     (⟨⟨[⟨"sha256:aaa"⟩]⟩⟩ : BundleMeta).from'.walk.getLast? = some ⟨"sha256:aaa"⟩ ∧
     oracleC4.openMtree = true ∧ oracleC4.parseOk = true ∧ oracleC4.walkOk = true ∧
     oracleC4.diffsRes = some [⟨.Same, "etc", true, true⟩] ∧
     (∀ d ∈ ([⟨.Same, "etc", true, true⟩] : List DiffEntry), d.ty = .Same)) ∧
    GenerateSquashfsLayer "/bundle" oracleC4 =
      { err := none, archiverInvoked := false, blobAdded := none,
        manifestGenerated := none, mtreeRemoved := false, persistedMeta := none,
        fs := oracleC4.initFS } :=
  ⟨⟨rfl, by decide, by decide, by decide, by decide, rfl, by decide⟩,
   C4_empty_diff_idempotence "/bundle" oracleC4 ⟨⟨[⟨"sha256:aaa"⟩]⟩⟩ ⟨"sha256:aaa"⟩
     [⟨.Same, "etc", true, true⟩] rfl (by decide) (by decide) (by decide)
     (by decide) rfl (by decide)⟩

/-! ### Claim C5: descriptor round-trip -/

/-- Claim C5 (confirmed): after every successful layer generation (success
with a blob added), the persisted bundle meta's `from.Walk` is exactly the
one-element sequence holding the descriptor returned by the content store,
and the new manifest file is named by that descriptor's digest with `:`
replaced by `_` and the suffix `.mtree`. -/
theorem C5_descriptor_roundtrip (bundlepath : String) (o : Oracles) (desc : Descriptor)
    (herr : (GenerateSquashfsLayer bundlepath o).err = none)
    (hblob : (GenerateSquashfsLayer bundlepath o).blobAdded = some desc) :
    ((GenerateSquashfsLayer bundlepath o).persistedMeta.map fun m => m.from'.walk) =
      some [desc] ∧
    (GenerateSquashfsLayer bundlepath o).manifestGenerated =
      some (replaceColonUnder desc.digest ++ ".mtree") := by
  cases hrm : o.readMeta with
  | error e => simp [GenerateSquashfsLayer, hrm] at herr
  | ok meta =>
  cases hgl : meta.from'.walk.getLast? with
  | none => simp [GenerateSquashfsLayer, hrm, hgl] at herr
  | some dlast =>
  cases h3 : o.openMtree with
  | false => simp [GenerateSquashfsLayer, hrm, hgl, h3] at herr
  | true =>
  cases h4 : o.parseOk with
  | false => simp [GenerateSquashfsLayer, hrm, hgl, h3, h4] at herr
  | true =>
  cases h5 : o.walkOk with
  | false => simp [GenerateSquashfsLayer, hrm, hgl, h3, h4, h5] at herr
  | true =>
  cases hds : o.diffsRes with
  | none => simp [GenerateSquashfsLayer, hrm, hgl, h3, h4, h5, hds] at herr
  | some diffs =>
  cases hse : (processDiffs (goJoin [bundlepath, "rootfs"]) o (initLoopState o) diffs).err with
  | some e => simp [GenerateSquashfsLayer, hrm, hgl, h3, h4, h5, hds, hse] at herr
  | none =>
  cases hnl : (processDiffs (goJoin [bundlepath, "rootfs"]) o (initLoopState o) diffs).needsLayer with
  | false => simp [GenerateSquashfsLayer, hrm, hgl, h3, h4, h5, hds, hse, hnl] at hblob
  | true =>
  cases hms : o.makeSquash with
  | false => simp [GenerateSquashfsLayer, hrm, hgl, h3, h4, h5, hds, hse, hnl, hms] at herr
  | true =>
  cases hab : o.addBlob with
  | error e => simp [GenerateSquashfsLayer, hrm, hgl, h3, h4, h5, hds, hse, hnl, hms, hab] at herr
  | ok desc' =>
  cases hgm : o.genManifest with
  | false =>
    simp [GenerateSquashfsLayer, hrm, hgl, h3, h4, h5, hds, hse, hnl, hms, hab, hgm] at herr
  | true =>
  cases hwm : o.writeMeta with
  | false =>
    simp [GenerateSquashfsLayer, hrm, hgl, h3, h4, h5, hds, hse, hnl, hms, hab, hgm, hwm] at herr
  | true =>
  simp only [GenerateSquashfsLayer, hrm, hgl, h3, h4, h5, hds, hse, hnl, hms, hab, hgm,
    hwm] at hblob ⊢
  simp only [Bool.not_true, Bool.false_eq_true, if_false] at hblob ⊢
  simp at hblob
  simp [hblob]

/-- Effect oracle for the C5 witness: a fully successful generation of one
layer for a single Extra entry. -/
def oracleC5 : Oracles :=
  { readMeta := .ok ⟨⟨[⟨"sha256:aaa"⟩]⟩⟩,
    openMtree := true, parseOk := true, walkOk := true,
    diffsRes := some [⟨.Extra, "etc/hello", false, false⟩],
    initFS := [],
    mknod := fun _ => none,
    create := fun _ => none,
    makeSquash := true,
    addBlob := .ok ⟨"sha256:bbb"⟩,
    genManifest := true,
    writeMeta := true }

/-- Witness for `C5_descriptor_roundtrip` at a concrete input. -/
theorem C5_descriptor_roundtrip_witness :
    ((GenerateSquashfsLayer "/bundle" oracleC5).err = none ∧
     (GenerateSquashfsLayer "/bundle" oracleC5).blobAdded = some ⟨"sha256:bbb"⟩) ∧
    (((GenerateSquashfsLayer "/bundle" oracleC5).persistedMeta.map fun m => m.from'.walk) =
       some [⟨"sha256:bbb"⟩] ∧
     (GenerateSquashfsLayer "/bundle" oracleC5).manifestGenerated =
       some (replaceColonUnder "sha256:bbb" ++ ".mtree")) :=
  ⟨⟨by decide, by decide⟩,
   C5_descriptor_roundtrip "/bundle" oracleC5 ⟨"sha256:bbb"⟩ (by decide) (by decide)⟩

/-! ### Structure of canonical paths under the Go path functions

These lemmas characterize `goDir` on normalized absolute paths: taking the
parent drops exactly the last component.  They drive the ExcludeSet subtree
invariant (claim C1). -/

theorem joinSlash_cons_of_ne (c : List Char) {cs : List (List Char)} (h : cs ≠ []) :
    joinSlash (c :: cs) = c ++ '/' :: joinSlash cs := by
  cases cs with
  | nil => exact absurd rfl h
  | cons c' cs' => rfl

theorem joinSlash_concat (cs : List (List Char)) (a : List Char) :
    joinSlash (cs ++ [a]) = if cs = [] then a else joinSlash cs ++ '/' :: a := by
  induction cs with
  | nil => rfl
  | cons c cs' ih =>
    rw [List.cons_append, joinSlash_cons_of_ne c (by simp)]
    cases hcs : cs' with
    | nil => simp [joinSlash]
    | cons c'' cs'' =>
      rw [← hcs, ih, if_neg (by simp [hcs]), if_neg (by simp),
        joinSlash_cons_of_ne c (by simp [hcs]), List.append_assoc]
      rfl

theorem joinSlash_ne_nil {cs : List (List Char)} (hne : cs ≠ [])
    (h : ∀ c ∈ cs, c ≠ []) : joinSlash cs ≠ [] := by
  cases cs with
  | nil => exact absurd rfl hne
  | cons c cs' =>
    cases cs' with
    | nil => exact h c (by simp)
    | cons c' cs'' => simp [joinSlash]

theorem splitCharL_ne_nil (sep : Char) (l : List Char) : splitCharL sep l ≠ [] := by
  cases l with
  | nil => simp [splitCharL]
  | cons c rest =>
    simp only [splitCharL]
    split
    · simp
    · cases h : splitCharL sep rest with
      | nil => simp
      | cons s ss => simp

theorem splitCharL_sep_cons (sep : Char) (l : List Char) :
    splitCharL sep (sep :: l) = [] :: splitCharL sep l := by
  simp [splitCharL]

theorem splitCharL_seg (sep : Char) (c l : List Char) (hc : sep ∉ c) :
    splitCharL sep (c ++ sep :: l) = c :: splitCharL sep l := by
  induction c with
  | nil => simpa using splitCharL_sep_cons sep l
  | cons x c' ih =>
    have hx : ¬(x = sep) := fun h => hc (h ▸ List.mem_cons_self x c')
    rw [List.cons_append]
    simp only [splitCharL, if_neg hx]
    rw [ih (fun h => hc (List.mem_cons_of_mem x h))]

theorem splitCharL_joinSlash (cs : List (List Char)) (hne : cs ≠ [])
    (h : ∀ c ∈ cs, c ≠ [] ∧ '/' ∉ c) :
    splitCharL '/' (joinSlash cs ++ ['/']) = cs ++ [[]] := by
  induction cs with
  | nil => exact absurd rfl hne
  | cons c cs' ih =>
    cases hcs : cs' with
    | nil =>
      show splitCharL '/' (joinSlash [c] ++ ['/']) = [c] ++ [[]]
      have : joinSlash [c] ++ ['/'] = c ++ '/' :: [] := by simp [joinSlash]
      rw [this, splitCharL_seg '/' c [] (h c (by simp)).2]
      rfl
    | cons c'' cs'' =>
      rw [← hcs, joinSlash_cons_of_ne c (by simp [hcs]), List.append_assoc, List.cons_append,
        splitCharL_seg '/' c _ (h c (by simp)).2,
        ih (by simp [hcs]) (fun c' hc' => h c' (List.mem_cons_of_mem c hc'))]
      rfl

theorem resolveDots_no_dots (rooted : Bool) (l : List (List Char))
    (h : ∀ c ∈ l, c ≠ ['.', '.']) : ∀ acc, resolveDots rooted acc l = acc.reverse ++ l := by
  induction l with
  | nil => intro acc; simp [resolveDots]
  | cons c rest ih =>
    intro acc
    have hc : ¬(c = ['.', '.']) := h c (by simp)
    simp only [resolveDots, if_neg hc]
    rw [ih (fun c' h' => h c' (by simp [h'])) (c :: acc)]
    simp

theorem cleanL_canonical_slash (cs : List (List Char)) (hne : cs ≠ [])
    (h : ∀ c ∈ cs, goodComp c) :
    cleanL ('/' :: (joinSlash cs ++ ['/'])) = renderComps cs := by
  have hfil : ((([] : List Char) :: (cs ++ [[]])).filter
      (fun c => c != [] && c != ['.'])) = cs := by
    rw [List.filter_cons_of_neg (by simp), List.filter_append]
    rw [List.filter_eq_self.mpr (fun c hc => by
      rcases h c hc with ⟨h1, h2, _, _⟩
      simp [h1, h2])]
    simp
  simp only [cleanL, List.head?_cons, beq_self_eq_true, if_true]
  rw [if_neg (by simp)]
  rw [splitCharL_sep_cons,
    splitCharL_joinSlash cs hne (fun c hc => ⟨(h c hc).1, (h c hc).2.2.2⟩), hfil,
    resolveDots_no_dots true cs (fun c hc => (h c hc).2.2.1) []]
  simp [renderComps]

theorem dirL_renderComps_concat (cs : List (List Char)) (a : List Char)
    (ha : goodComp a) (hcs : ∀ c ∈ cs, goodComp c) :
    dirL (renderComps (cs ++ [a])) = renderComps cs := by
  have hano : ∀ x ∈ a.reverse, (fun c => c != '/') x = true := by
    intro x hx
    have : x ∈ a := List.mem_reverse.mp hx
    have : x ≠ '/' := fun he => ha.2.2.2 (he ▸ this)
    simpa using this
  cases hcse : cs with
  | nil =>
    subst hcse
    show dirL (renderComps [a]) = renderComps []
    have h1 : renderComps [a] = '/' :: a := rfl
    have h2 : (('/' : Char) :: a).reverse = a.reverse ++ ['/'] := by simp
    unfold dirL
    rw [h1, h2, List.dropWhile_append]
    rw [List.dropWhile_eq_nil_iff.mpr hano]
    show cleanL ((List.dropWhile (fun c => c != '/') ['/']).reverse) = renderComps []
    have : List.dropWhile (fun c => c != '/') ['/'] = ['/'] := by decide
    rw [this]
    decide
  | cons c0 cs0 =>
    rw [← hcse]
    have hcsne : cs ≠ [] := by simp [hcse]
    have h1 : renderComps (cs ++ [a]) =
        '/' :: (joinSlash cs ++ '/' :: a) := by
      unfold renderComps
      rw [joinSlash_concat, if_neg hcsne]
    have h2 : ('/' :: (joinSlash cs ++ '/' :: a)).reverse =
        a.reverse ++ ('/' :: ((joinSlash cs).reverse ++ ['/'])) := by
      simp
    unfold dirL
    rw [h1, h2, List.dropWhile_append]
    rw [List.dropWhile_eq_nil_iff.mpr hano]
    have h3 : List.dropWhile (fun c => c != '/') ('/' :: ((joinSlash cs).reverse ++ ['/'])) =
        '/' :: ((joinSlash cs).reverse ++ ['/']) := by
      rw [List.dropWhile_cons_of_neg (by simp)]
    rw [h3]
    show cleanL (('/' :: ((joinSlash cs).reverse ++ ['/'])).reverse) = renderComps cs
    have h4 : (('/' : Char) :: ((joinSlash cs).reverse ++ ['/'])).reverse =
        '/' :: (joinSlash cs ++ ['/']) := by simp
    rw [h4]
    exact cleanL_canonical_slash cs hcsne hcs

theorem goDir_renderComps_concat (cs : List (List Char)) (a : List Char)
    (ha : goodComp a) (hcs : ∀ c ∈ cs, goodComp c) :
    goDir ⟨renderComps (cs ++ [a])⟩ = (⟨renderComps cs⟩ : String) := by
  show (⟨dirL (renderComps (cs ++ [a]))⟩ : String) = ⟨renderComps cs⟩
  rw [dirL_renderComps_concat cs a ha hcs]

/-! ### The ancestor-removal loop on canonical paths -/

theorem le_joinSlash_length (cs : List (List Char)) (h : ∀ c ∈ cs, c ≠ []) :
    cs.length ≤ (joinSlash cs).length + 1 := by
  induction cs with
  | nil => simp
  | cons c cs' ih =>
    cases hcs : cs' with
    | nil => simp [joinSlash]
    | cons c'' cs'' =>
      subst hcs
      rw [joinSlash_cons_of_ne c (by simp)]
      have hcne : 1 ≤ c.length :=
        List.length_pos.mpr (h c (by simp))
      have := ih (fun c' hc' => h c' (List.mem_cons_of_mem c hc'))
      simp only [List.length_cons, List.length_append] at this ⊢
      omega

theorem le_renderComps_length (cs : List (List Char)) (h : ∀ c ∈ cs, c ≠ []) :
    cs.length ≤ (renderComps cs).length := by
  have := le_joinSlash_length cs h
  simp only [renderComps, List.length_cons]
  omega

theorem renderComps_ne_root {cs : List (List Char)} (hne : cs ≠ [])
    (h : ∀ c ∈ cs, c ≠ []) : (⟨renderComps cs⟩ : String) ≠ "/" := by
  intro he
  have hd : renderComps cs = ['/'] := congrArg String.data he
  have : joinSlash cs = [] := by
    have := congrArg List.tail hd
    simpa [renderComps] using this
  exact joinSlash_ne_nil hne h this

/-- The cumulative effect of the ancestor-removal loop, expressed over the
component list: erase the rendering of every non-empty prefix of `cs`. -/
def chainErase (cs : List (List Char)) (ex : List String) : List String :=
  if h : cs = [] then ex
  else chainErase cs.dropLast (eraseKey ex ⟨renderComps cs⟩)
termination_by cs.length
decreasing_by
  simp only [List.length_dropLast]
  exact Nat.sub_lt (List.length_pos.mpr h) Nat.one_pos

theorem chainErase_nil (ex : List String) : chainErase [] ex = ex := by
  rw [chainErase]
  simp

theorem chainErase_ne (cs : List (List Char)) (ex : List String) (h : cs ≠ []) :
    chainErase cs ex = chainErase cs.dropLast (eraseKey ex ⟨renderComps cs⟩) := by
  rw [chainErase]
  simp [h]

/-- The Go loop of `AddInclude`, started on the rendering of a canonical
component list with enough fuel, erases exactly every non-empty prefix. -/
theorem removeAncestors_eq_chainErase (cs : List (List Char)) (h : ∀ c ∈ cs, goodComp c) :
    ∀ fuel : Nat, cs.length ≤ fuel → ∀ ex,
      removeAncestors fuel ⟨renderComps cs⟩ ex = chainErase cs ex := by
  induction cs using List.reverseRecOn with
  | nil =>
    intro fuel _ ex
    have hroot : (⟨renderComps []⟩ : String) = "/" := rfl
    rw [hroot, chainErase_nil]
    cases fuel with
    | zero => rfl
    | succ f => simp [removeAncestors]
  | append_singleton l a ih =>
    intro fuel hfuel ex
    have hlen : l.length + 1 ≤ fuel := by simpa using hfuel
    cases fuel with
    | zero => omega
    | succ f =>
      have hne : (⟨renderComps (l ++ [a])⟩ : String) ≠ "/" :=
        renderComps_ne_root (by simp) (fun c hc => (h c hc).1)
      show (if (⟨renderComps (l ++ [a])⟩ : String) = "/" then ex
        else removeAncestors f (goDir ⟨renderComps (l ++ [a])⟩)
          (eraseKey ex ⟨renderComps (l ++ [a])⟩)) = _
      rw [if_neg hne,
        goDir_renderComps_concat l a (h a (by simp)) (fun c hc => h c (by simp [hc])),
        ih (fun c hc => h c (by simp [hc])) f (by omega),
        chainErase_ne (l ++ [a]) ex (by simp), List.dropLast_concat]

theorem mem_chainErase (cs : List (List Char)) :
    ∀ (ex : List String) (q : String),
      q ∈ chainErase cs ex ↔
        q ∈ ex ∧ ∀ ps, ps ≠ [] → ps <+: cs → q ≠ ⟨renderComps ps⟩ := by
  induction cs using List.reverseRecOn with
  | nil =>
    intro ex q
    rw [chainErase_nil]
    constructor
    · intro hq
      refine ⟨hq, ?_⟩
      intro ps hne hpre
      exact absurd (List.prefix_nil.mp hpre) hne
    · exact fun hq => hq.1
  | append_singleton l a ih =>
    intro ex q
    rw [chainErase_ne (l ++ [a]) ex (by simp), List.dropLast_concat, ih, mem_eraseKey]
    constructor
    · rintro ⟨⟨hq, hne⟩, hps⟩
      refine ⟨hq, ?_⟩
      intro ps hpsne hpre
      rcases List.prefix_concat_iff.mp hpre with rfl | hpre'
      · exact hne
      · exact hps ps hpsne hpre'
    · rintro ⟨hq, hps⟩
      refine ⟨⟨hq, hps (l ++ [a]) (by simp) (by simp)⟩, ?_⟩
      intro ps hpsne hpre
      exact hps ps hpsne (hpre.trans (by simp))

/-! ### Prefix structure of rendered canonical paths -/

theorem noSlash_not_prefix (a b r : List Char) (hb : '/' ∉ b) :
    ¬((a ++ '/' :: r) <+: b) := by
  intro h
  rcases h with ⟨t, ht⟩
  apply hb
  rw [← ht]
  simp

theorem noSlash_prefix_eq (a : List Char) :
    ∀ (b r t : List Char), '/' ∉ a → '/' ∉ b →
      (a ++ '/' :: r) <+: (b ++ '/' :: t) → a = b ∧ r <+: t := by
  induction a with
  | nil =>
    intro b r t _ hb h
    cases b with
    | nil => exact ⟨rfl, by simpa using h⟩
    | cons y b' =>
      exfalso
      rw [List.nil_append, List.cons_append, List.cons_prefix_cons] at h
      exact hb (h.1 ▸ List.mem_cons_self y b')
  | cons x a' ih =>
    intro b r t ha hb h
    cases b with
    | nil =>
      exfalso
      rw [List.cons_append, List.nil_append, List.cons_prefix_cons] at h
      exact ha (h.1 ▸ List.mem_cons_self x a')
    | cons y b' =>
      rw [List.cons_append, List.cons_append, List.cons_prefix_cons] at h
      obtain ⟨rfl, h2⟩ := h
      obtain ⟨rfl, hrt⟩ := ih b' r t (fun hm => ha (List.mem_cons_of_mem x hm))
        (fun hm => hb (List.mem_cons_of_mem x hm)) h2
      exact ⟨rfl, hrt⟩

theorem joinSlash_strict_prefix (es : List (List Char)) :
    ∀ is : List (List Char),
      (∀ c ∈ es, goodComp c) → (∀ c ∈ is, goodComp c) →
      (joinSlash es ++ ['/']) <+: joinSlash is → es <+: is ∧ es ≠ is := by
  induction es with
  | nil =>
    intro is _ his h
    cases is with
    | nil =>
      exfalso
      have := List.prefix_nil.mp h
      simp at this
    | cons b is' =>
      exact ⟨List.nil_prefix, by simp⟩
  | cons a es' ih =>
    intro is hes his h
    cases is with
    | nil =>
      exfalso
      have := List.prefix_nil.mp h
      simp at this
    | cons b is' =>
      have hano : '/' ∉ a := (hes a (by simp)).2.2.2
      have hbno : '/' ∉ b := (his b (by simp)).2.2.2
      rcases eq_or_ne es' [] with hes' | hes'ne
      · subst hes'
        rcases eq_or_ne is' [] with his' | his'ne
        · subst his'
          exfalso
          have hsh : (a ++ '/' :: []) <+: b := by simpa [joinSlash] using h
          exact noSlash_not_prefix a b [] hbno hsh
        · have hsh : (a ++ '/' :: []) <+: (b ++ '/' :: joinSlash is') := by
            rw [← joinSlash_cons_of_ne b his'ne]
            simpa [joinSlash] using h
          obtain ⟨rfl, _⟩ := noSlash_prefix_eq a b [] (joinSlash is') hano hbno hsh
          refine ⟨?_, ?_⟩
          · rw [List.cons_prefix_cons]
            exact ⟨rfl, List.nil_prefix⟩
          · intro hEq
            apply his'ne
            injection hEq with h1 h2
            exact h2.symm
      · rcases eq_or_ne is' [] with his' | his'ne
        · subst his'
          exfalso
          have hsh : (a ++ '/' :: (joinSlash es' ++ ['/'])) <+: b := by
            rw [joinSlash_cons_of_ne a hes'ne] at h
            simpa [joinSlash, List.append_assoc] using h
          exact noSlash_not_prefix a b _ hbno hsh
        · have hsh : (a ++ '/' :: (joinSlash es' ++ ['/'])) <+:
              (b ++ '/' :: joinSlash is') := by
            rw [joinSlash_cons_of_ne a hes'ne, joinSlash_cons_of_ne b his'ne] at h
            simpa [List.append_assoc] using h
          obtain ⟨rfl, hrt⟩ := noSlash_prefix_eq a b _ (joinSlash is') hano hbno hsh
          obtain ⟨hp, hne⟩ := ih is'
            (fun c hc => hes c (List.mem_cons_of_mem a hc))
            (fun c hc => his c (List.mem_cons_of_mem a hc)) hrt
          refine ⟨?_, ?_⟩
          · rw [List.cons_prefix_cons]
            exact ⟨rfl, hp⟩
          · intro hEq
            apply hne
            injection hEq

/-! ### The directory-hierarchy relation versus rendered canonical paths -/

theorem dirAncestor_hasPre (e i : String) (h : isDirAncestor e i = true) :
    hasPrefixGo i e = true := by
  unfold isDirAncestor at h
  rcases Bool.or_eq_true_iff.mp h with h1 | h2
  · have he : e = i := by simpa using h1
    subst he
    unfold hasPrefixGo
    simp [List.isPrefixOf_iff_prefix]
  · by_cases he : e = "/"
    · rw [if_pos (by simp [he])] at h2
      rw [he]
      exact h2
    · rw [if_neg (by simp [he])] at h2
      unfold hasPrefixGo at h2 ⊢
      rw [List.isPrefixOf_iff_prefix] at h2 ⊢
      have hself : e.data <+: (e ++ "/").data := by
        rw [String.data_append]
        exact List.prefix_append _ _
      exact hself.trans h2

theorem canonical_mk (s : String) (cs : List (List Char)) (h : s.data = renderComps cs) :
    s = ⟨renderComps cs⟩ := by
  cases s with
  | mk data => exact congrArg String.mk h

theorem strictAncestor_components (e i : String) (es is : List (List Char))
    (hes : ∀ c ∈ es, goodComp c) (his : ∀ c ∈ is, goodComp c)
    (hde : e.data = renderComps es) (hdi : i.data = renderComps is)
    (h : isStrictDirAncestor e i = true) : es <+: is ∧ es ≠ is := by
  unfold isStrictDirAncestor at h
  rw [Bool.and_eq_true] at h
  obtain ⟨hne, hanc⟩ := h
  have hnei : e ≠ i := by simpa using hne
  unfold isDirAncestor at hanc
  rcases Bool.or_eq_true_iff.mp hanc with h1 | h2
  · exact absurd (by simpa using h1 : e = i) hnei
  · by_cases he : e = "/"
    · have hesnil : es = [] := by
        have hr : renderComps es = ['/'] := by
          rw [← hde, he]
        have hj : joinSlash es = [] := by
          have := congrArg List.tail hr
          simpa [renderComps] using this
        by_contra hne2
        exact joinSlash_ne_nil hne2 (fun c hc => (hes c hc).1) hj
      subst hesnil
      refine ⟨List.nil_prefix, ?_⟩
      intro hEq
      apply hnei
      have hi : i = (⟨renderComps []⟩ : String) := canonical_mk i [] (by rw [hdi, ← hEq])
      rw [he, hi]
      rfl
    · rw [if_neg (by simp [he])] at h2
      unfold hasPrefixGo at h2
      rw [List.isPrefixOf_iff_prefix] at h2
      rw [String.data_append, hde, hdi] at h2
      have h3 : (joinSlash es ++ ['/']) <+: joinSlash is := by
        rw [renderComps, renderComps] at h2
        have h4 : (('/' :: joinSlash es) ++ ("/" : String).data) =
            '/' :: (joinSlash es ++ ['/']) := by rfl
        rw [h4, List.cons_prefix_cons] at h2
        exact h2.2
      exact joinSlash_strict_prefix es is hes his h3

theorem prefix_dropLast_of_ne {α : Type} {l₁ l₂ : List α} (h : l₁ <+: l₂) (hne : l₁ ≠ l₂) :
    l₁ <+: l₂.dropLast := by
  obtain ⟨t, rfl⟩ := h
  rcases List.eq_nil_or_concat t with rfl | ⟨t', x, rfl⟩
  · simp at hne
  · rw [List.concat_eq_append, ← List.append_assoc, List.dropLast_concat]
    exact List.prefix_append _ _

/-! ### The ExcludeSet invariant (claim C1) -/

/-- The invariant actually maintained by the API on canonical paths: every
exclude-set member that is a *strict* directory-hierarchy ancestor of an
include-list member is the root `"/"` (which the removal loop never erases). -/
def ExInv (eps : ExcludePaths) : Prop :=
  (∀ e ∈ eps.exclude, Canonical e) ∧
  (∀ i ∈ eps.include', Canonical i) ∧
  (∀ e ∈ eps.exclude, ∀ i ∈ eps.include', isStrictDirAncestor e i = true → e = "/")

theorem ExInv_new : ExInv NewExcludePaths := by
  refine ⟨?_, ?_, ?_⟩ <;> intro x hx <;> exact absurd hx (List.not_mem_nil x)

theorem ExInv_addExclude (eps : ExcludePaths) (p : String) (h : ExInv eps)
    (hp : Canonical p) : ExInv (eps.AddExclude p) := by
  obtain ⟨hexc, hinc, hpair⟩ := h
  unfold ExcludePaths.AddExclude
  by_cases hany : eps.include'.any (fun inc => hasPrefixGo inc p)
  · rw [if_pos hany]
    exact ⟨hexc, hinc, hpair⟩
  · rw [if_neg hany]
    refine ⟨?_, hinc, ?_⟩
    · intro e he
      rcases mem_insertKey.mp he with he' | rfl
      · exact hexc e he'
      · exact hp
    · intro e he i hi hanc
      rcases mem_insertKey.mp he with he' | rfl
      · exact hpair e he' i hi hanc
      · exfalso
        have hda : isDirAncestor e i = true := by
          unfold isStrictDirAncestor at hanc
          rw [Bool.and_eq_true] at hanc
          exact hanc.2
        exact hany (List.any_eq_true.mpr ⟨i, hi, dirAncestor_hasPre e i hda⟩)

theorem ExInv_addInclude_core (eps : ExcludePaths) (orig : String) (isDir : Bool)
    (cs0 scs : List (List Char))
    (hgood0 : ∀ c ∈ cs0, goodComp c) (hdata0 : orig.data = renderComps cs0)
    (hgoods : ∀ c ∈ scs, goodComp c)
    (hp : (if isDir then orig else goDir orig) = (⟨renderComps scs⟩ : String))
    (hsub : ∀ es : List (List Char), es ≠ [] → es <+: cs0 → es ≠ cs0 → es <+: scs)
    (h : ExInv eps) : ExInv (eps.AddInclude orig isDir) := by
  obtain ⟨hexc, hinc, hpair⟩ := h
  have hexeq : (eps.AddInclude orig isDir).exclude = chainErase scs eps.exclude := by
    show removeAncestors (if isDir then orig else goDir orig).length
      (if isDir then orig else goDir orig) eps.exclude = _
    rw [hp]
    exact removeAncestors_eq_chainErase scs hgoods _
      (le_renderComps_length scs (fun c hc => (hgoods c hc).1)) eps.exclude
  have hinceq : (eps.AddInclude orig isDir).include' = eps.include' ++ [orig] := rfl
  refine ⟨?_, ?_, ?_⟩
  · intro e he
    rw [hexeq] at he
    exact hexc e ((mem_chainErase scs eps.exclude e).mp he).1
  · intro i hi
    rw [hinceq] at hi
    rcases List.mem_append.mp hi with hi' | hi'
    · exact hinc i hi'
    · have : i = orig := by simpa using hi'
      rw [this]
      exact ⟨cs0, hgood0, hdata0⟩
  · intro e he i hi hanc
    rw [hexeq] at he
    have hem := (mem_chainErase scs eps.exclude e).mp he
    rw [hinceq] at hi
    rcases List.mem_append.mp hi with hi' | hi'
    · exact hpair e hem.1 i hi' hanc
    · have hio : i = orig := by simpa using hi'
      subst hio
      obtain ⟨es, hgoodes, hdataes⟩ := hexc e hem.1
      rcases eq_or_ne es [] with rfl | hesne
      · rw [canonical_mk e [] hdataes]
        rfl
      · exfalso
        obtain ⟨hpre, hnees⟩ :=
          strictAncestor_components e i es cs0 hgoodes hgood0 hdataes hdata0 hanc
        exact (hem.2 es hesne (hsub es hesne hpre hnees)) (canonical_mk e es hdataes)

theorem ExInv_addInclude (eps : ExcludePaths) (orig : String) (isDir : Bool)
    (h : ExInv eps) (ho : Canonical orig) : ExInv (eps.AddInclude orig isDir) := by
  obtain ⟨cs0, hgood0, hdata0⟩ := ho
  cases isDir with
  | true =>
    exact ExInv_addInclude_core eps orig true cs0 cs0 hgood0 hdata0 hgood0
      (by simpa using canonical_mk orig cs0 hdata0)
      (fun es _ hpre _ => hpre) h
  | false =>
    refine ExInv_addInclude_core eps orig false cs0 cs0.dropLast hgood0 hdata0
      (fun c hc => hgood0 c (List.dropLast_subset cs0 hc)) ?_
      (fun es _ hpre hne => prefix_dropLast_of_ne hpre hne) h
    show goDir orig = _
    rcases List.eq_nil_or_concat cs0 with rfl | ⟨l, a, hcat⟩
    · rw [canonical_mk orig [] hdata0]
      decide
    · rw [List.concat_eq_append] at hcat
      subst hcat
      rw [canonical_mk orig (l ++ [a]) hdata0, List.dropLast_concat]
      exact goDir_renderComps_concat l a (hgood0 a (by simp))
        (fun c hc => hgood0 c (by simp [hc]))

theorem ExInv_foldl (cs : List PathCall) :
    ∀ eps : ExcludePaths, ExInv eps → (∀ c ∈ cs, Canonical (callPath c)) →
      ExInv (cs.foldl applyCall eps) := by
  induction cs with
  | nil => intro eps h _; exact h
  | cons c rest ih =>
    intro eps h hc
    rw [List.foldl_cons]
    refine ih _ ?_ (fun c' hc' => hc c' (List.mem_cons_of_mem c hc'))
    cases c with
    | exc p => exact ExInv_addExclude eps p h (hc (PathCall.exc p) (List.mem_cons_self _ _))
    | inc orig isDir =>
      exact ExInv_addInclude eps orig isDir h
        (hc (PathCall.inc orig isDir) (List.mem_cons_self _ _))

/-! ### Claim C1 -/

/-- Claim C1 (counterexample): the sequence
`add_exclude("/"); add_exclude("/a"); add_include("/a", false)` leaves both
`"/"` and `"/a"` in the exclude set while `"/a"` is included: `"/"` is a
strict directory-hierarchy prefix of the included `"/a"` (the removal loop of
`add_include` stops *before* the root and, for a non-directory, never removes
the path itself), so a rendered exclude path is a prefix of an included
path. -/
theorem C1_counterexample :
    "/" ∈ (runCalls [.exc "/", .exc "/a", .inc "/a" false]).exclude ∧
    "/a" ∈ (runCalls [.exc "/", .exc "/a", .inc "/a" false]).include' ∧
    isDirAncestor "/" "/a" = true ∧ isStrictDirAncestor "/" "/a" = true ∧
    "/a" ∈ (runCalls [.exc "/", .exc "/a", .inc "/a" false]).exclude ∧
    isDirAncestor "/a" "/a" = true := by decide

/-- Claim C1 (amended): for every sequence of `add_include`/`add_exclude`
calls over normalized absolute paths, every path in the exclude set that is a
*strict* directory-hierarchy prefix of a path in the include list is the root
`"/"` itself (the loop never erases the root; moreover a path equal to an
include added with `is_dir = false` may remain excluded, which the strictness
qualifier exempts). -/
theorem C1_subtree_safety (cs : List PathCall)
    (hc : ∀ c ∈ cs, Canonical (callPath c)) :
    ∀ e ∈ (runCalls cs).exclude, ∀ i ∈ (runCalls cs).include',
      isStrictDirAncestor e i = true → e = "/" :=
  (ExInv_foldl cs NewExcludePaths ExInv_new hc).2.2

/-- Witness for `C1_subtree_safety` at a concrete call sequence. -/
theorem C1_subtree_safety_witness :
    (∀ c ∈ ([.exc "/usr", .inc "/usr/bin/ls" false] : List PathCall),
      Canonical (callPath c)) ∧
    (∀ e ∈ (runCalls [.exc "/usr", .inc "/usr/bin/ls" false]).exclude,
      ∀ i ∈ (runCalls [.exc "/usr", .inc "/usr/bin/ls" false]).include',
        isStrictDirAncestor e i = true → e = "/") := by
  have hcanon : ∀ c ∈ ([.exc "/usr", .inc "/usr/bin/ls" false] : List PathCall),
      Canonical (callPath c) := by
    intro c hc
    rcases List.mem_cons.mp hc with rfl | hc2
    · exact ⟨[['u', 's', 'r']], by decide, by decide⟩
    · rcases List.mem_cons.mp hc2 with rfl | hc3
      · exact ⟨[['u', 's', 'r'], ['b', 'i', 'n'], ['l', 's']], by decide, by decide⟩
      · exact absurd hc3 (List.not_mem_nil c)
  exact ⟨hcanon, C1_subtree_safety _ hcanon⟩

end Stacker
